import Mathlib

/-!
Verification of the Bencode decoder in src/bencode.rs (nom 7 combinators).

Bytes are modelled as natural numbers (the code only ever compares them with
ASCII constants, so no mod-256 arithmetic arises).  A nom IResult is modelled
as an Except value carrying, on failure, the remaining input at the error
position together with the nom ErrorKind that the failing combinator reports,
exactly as the nom 7 combinators used by the source do:

  - tag        fails with ErrorKind::Tag at its input,
  - digit1     fails with ErrorKind::Digit at its input,
  - is_not     fails with ErrorKind::IsNot at its input,
  - map_res    fails with ErrorKind::MapRes at the input it was given,
  - take(n)    fails with ErrorKind::Eof at its input,
  - many0      fails with ErrorKind::Many0 when its inner parser succeeds
               without consuming input,
  - alt        returns the error of its last alternative,
  - delimited, terminated and pair propagate the first failure unchanged.

Machine integers: usize is 64 bits wide, so str::parse::<usize> on a digit
string fails exactly when the value is at least 2^64; str::parse::<i64>
accepts an optional ASCII plus or minus sign followed by one or more ASCII
decimal digits whose signed value fits in the 64-bit two's-complement range.
-/

/-- ASCII decimal digit test, as nom's is_dec_digit. -/
def isDigitB (b : Nat) : Bool := decide (48 ≤ b) && decide (b ≤ 57)

/-- Value of a big-endian ASCII digit string, as the successful case of
str::parse on it. -/
def natOfDigits (ds : List Nat) : Nat := ds.foldl (fun a d => a * 10 + (d - 48)) 0

/-- str::parse::<usize> applied to a non-empty ASCII digit string (the output
of digit1): succeeds with its value unless the value overflows the 64-bit
usize. -/
def parseUsize (ds : List Nat) : Option Nat :=
  if natOfDigits ds < 2 ^ 64 then some (natOfDigits ds) else none

/-- str::parse::<i64> applied to the bytes captured by is_not("e"), after
String::from_utf8_lossy: succeeds exactly on an optional sign (plus or minus)
followed by one or more ASCII digits, when the signed value fits in i64.
Any other byte (including the bytes of a non-ASCII character, which the lossy
conversion turns into characters that are not ASCII digits) makes it fail. -/
def parseI64 (bs : List Nat) : Option Int :=
  match bs with
  | [] => none
  | b :: rest =>
    let ds := if b = 45 ∨ b = 43 then rest else bs
    if ds ≠ [] ∧ ds.all isDigitB = true then
      let v : Int := if b = 45 then -(natOfDigits ds : Int) else (natOfDigits ds : Int)
      if -(2 ^ 63) ≤ v ∧ v ≤ 2 ^ 63 - 1 then some v else none
    else none

/-- The nom ErrorKind values reported by the combinators this code uses. -/
inductive ErrKind where
  | tag : ErrKind
  | digit : ErrKind
  | isNot : ErrKind
  | mapRes : ErrKind
  | eof : ErrKind
  | many0g : ErrKind
  deriving DecidableEq

/-- A nom error: remaining input at the error position plus the ErrorKind. -/
abbrev Err := List Nat × ErrKind

/-- nom's tag combinator for a single byte: consumes the byte when it matches,
otherwise fails with ErrorKind::Tag at its input. -/
def tagB (t : Nat) (input : List Nat) : Except Err (List Nat × List Nat) :=
  match input with
  | b :: rest => if b = t then .ok (rest, [t]) else .error (input, .tag)
  | [] => .error (input, .tag)

/-- nom's character::complete::digit1: one or more ASCII digits, failing with
ErrorKind::Digit when the input does not start with a digit. -/
def digit1 (bs : List Nat) : Except Err (List Nat × List Nat) :=
  match bs.takeWhile isDigitB with
  | [] => .error (bs, .digit)
  | d :: ds => .ok (bs.dropWhile isDigitB, d :: ds)

/-- Byte that is not the ASCII letter e, the predicate behind is_not("e"). -/
def notE (b : Nat) : Bool := decide (b ≠ 101)

/-- parse_string from src/bencode.rs:
terminated(map_res(digit1, parse::<usize>), tag(":")) then
map(take(num_characters), to_vec). -/
def parse_string (bencode_bytes : List Nat) : Except Err (List Nat × List Nat) :=
  match digit1 bencode_bytes with
  | .error e => .error e
  | .ok (rem1, digits) =>
    match parseUsize digits with
    | none => .error (bencode_bytes, .mapRes)
    | some num_characters =>
      match tagB 58 rem1 with
      | .error e => .error e
      | .ok (remaining, _) =>
        if num_characters ≤ remaining.length then
          .ok (remaining.drop num_characters, remaining.take num_characters)
        else .error (remaining, .eof)

/-- parse_number from src/bencode.rs:
delimited(tag("i"), map_res(is_not("e"), parse::<i64>), tag("e")). -/
def parse_number (bencode_bytes : List Nat) : Except Err (List Nat × Int) :=
  match tagB 105 bencode_bytes with
  | .error e => .error e
  | .ok (r1, _) =>
    match r1.takeWhile notE with
    | [] => .error (r1, .isNot)
    | d :: ds =>
      match parseI64 (d :: ds) with
      | none => .error (r1, .mapRes)
      | some v =>
        match tagB 101 (r1.dropWhile notE) with
        | .error e => .error e
        | .ok (r3, _) => .ok (r3, v)

/-- The Bencode value tree from src/bencode.rs.  A BTreeMap of Vec<u8> keys is
modelled as its entry list in iteration order (strictly ascending in the
byte-lexicographic key order): see insertKV and collectMap below. -/
inductive Bencode where
  | Number : Int → Bencode
  | ByteString : List Nat → Bencode
  | List : List Bencode → Bencode
  | Dict : List (List Nat × Bencode) → Bencode

/-- Byte-lexicographic strict order on byte strings, the Ord instance of
Vec<u8> that BTreeMap sorts by (a strict prefix is smaller). -/
def ltBytes : List Nat → List Nat → Bool
  | [], [] => false
  | [], _ :: _ => true
  | _ :: _, [] => false
  | a :: as, b :: bs => if a < b then true else if a = b then ltBytes as bs else false

/-- BTreeMap::insert on the sorted entry list: replaces the entry with an
equal key, otherwise inserts at the byte-lexicographic position. -/
def insertKV (k : List Nat) (v : Bencode) : List (List Nat × Bencode) → List (List Nat × Bencode)
  | [] => [(k, v)]
  | (k1, v1) :: rest =>
    if ltBytes k k1 then (k, v) :: (k1, v1) :: rest
    else if k = k1 then (k, v) :: rest
    else (k1, v1) :: insertKV k v rest

/-- collect::<BTreeMap<_, _>>() on the parsed key/value pairs: successive
inserts in parse order, a later duplicate key replacing the earlier entry. -/
def collectMap (ps : List (List Nat × Bencode)) : List (List Nat × Bencode) :=
  ps.foldl (fun m p => insertKV p.1 p.2 m) []

theorem tagB_ok_length {t : Nat} {i r o : List Nat} (h : tagB t i = .ok (r, o)) :
    r.length < i.length := by
  cases i with
  | nil => simp [tagB] at h
  | cons b rest =>
    by_cases hb : b = t
    · simp [tagB, hb] at h
      simp [← h.1]
    · simp [tagB, hb] at h

theorem digit1_ok_length {i r o : List Nat} (h : digit1 i = .ok (r, o)) :
    r.length < i.length := by
  unfold digit1 at h
  split at h
  · simp at h
  · rename_i d ds htw
    simp at h
    obtain ⟨hr, _⟩ := h
    subst hr
    have hlen : (i.takeWhile isDigitB).length + (i.dropWhile isDigitB).length = i.length := by
      rw [← List.length_append, List.takeWhile_append_dropWhile]
    rw [htw] at hlen
    simp at hlen
    omega

theorem parse_string_ok_length {i r s : List Nat} (h : parse_string i = .ok (r, s)) :
    r.length < i.length := by
  unfold parse_string at h
  split at h
  · simp at h
  · rename_i rem1 digits hd
    have h1 : rem1.length < i.length := digit1_ok_length hd
    split at h
    · simp at h
    · rename_i n hu
      split at h
      · simp at h
      · rename_i remaining o ht
        have h2 : remaining.length < rem1.length := tagB_ok_length ht
        split at h
        · simp at h
          obtain ⟨hr, _⟩ := h
          subst hr
          have hdl : (remaining.drop n).length ≤ remaining.length := by
            simp [List.length_drop]
          omega
        · simp at h

mutual

/-- parse_list from src/bencode.rs: delimited(tag("l"), many0(parse_bencode), tag("e")). -/
def parse_list (bencode_bytes : List Nat) : Except Err (List Nat × List Bencode) :=
  match htag : tagB 108 bencode_bytes with
  | .error e => .error e
  | .ok (r1, _) =>
    match manyBencode r1 with
    | .error e => .error e
    | .ok (r2, elements) =>
      match tagB 101 r2 with
      | .error e => .error e
      | .ok (r3, _) => .ok (r3, elements)
  termination_by bencode_bytes.length * 3
  decreasing_by
    simp_wf
    have := tagB_ok_length htag
    omega

/-- parse_dictionary from src/bencode.rs:
map(delimited(tag("d"), many0(pair(parse_string, parse_bencode)), tag("e")), collect). -/
def parse_dictionary (bencode_bytes : List Nat) :
    Except Err (List Nat × List (List Nat × Bencode)) :=
  match htag : tagB 100 bencode_bytes with
  | .error e => .error e
  | .ok (r1, _) =>
    match manyPairs r1 with
    | .error e => .error e
    | .ok (r2, elements) =>
      match tagB 101 r2 with
      | .error e => .error e
      | .ok (r3, _) => .ok (r3, collectMap elements)
  termination_by bencode_bytes.length * 3
  decreasing_by
    simp_wf
    have := tagB_ok_length htag
    omega

/-- many0(parse_bencode): repeat the dispatcher until it fails, collecting the
values; inner success without consumption is a Many0 error.  nom checks
non-consumption by comparing lengths for equality; since every parser returns
a suffix of its input, that is the same as the strict-decrease test used
here (and parse_bencode always consumes on success, so the branch is dead). -/
def manyBencode (input : List Nat) : Except Err (List Nat × List Bencode) :=
  match parse_bencode input with
  | .error _ => .ok (input, [])
  | .ok (rest, v) =>
    if hlt : rest.length < input.length then
      match manyBencode rest with
      | .error e => .error e
      | .ok (fin, vs) => .ok (fin, v :: vs)
    else .error (input, .many0g)
  termination_by input.length * 3 + 2
  decreasing_by
    all_goals simp_wf
    all_goals omega

/-- many0(pair(parse_string, parse_bencode)): repeat key/value pairs until the
key or the value parser fails; the failing pair consumes nothing. -/
def manyPairs (input : List Nat) : Except Err (List Nat × List (List Nat × Bencode)) :=
  match hkey : parse_string input with
  | .error _ => .ok (input, [])
  | .ok (r1, key) =>
    match parse_bencode r1 with
    | .error _ => .ok (input, [])
    | .ok (r2, v) =>
      if hlt : r2.length < input.length then
        match manyPairs r2 with
        | .error e => .error e
        | .ok (fin, ps) => .ok (fin, (key, v) :: ps)
      else .error (input, .many0g)
  termination_by input.length * 3 + 2
  decreasing_by
    all_goals simp_wf
    all_goals have h9 := parse_string_ok_length hkey
    all_goals omega

/-- parse_bencode from src/bencode.rs: alt of parse_number, parse_string,
parse_list, parse_dictionary, wrapped into the Bencode variants; on total
failure alt yields the error of its last alternative. -/
def parse_bencode (bencode_bytes : List Nat) : Except Err (List Nat × Bencode) :=
  match parse_number bencode_bytes with
  | .ok (r, n) => .ok (r, .Number n)
  | .error _ =>
    match parse_string bencode_bytes with
    | .ok (r, s) => .ok (r, .ByteString s)
    | .error _ =>
      match parse_list bencode_bytes with
      | .ok (r, l) => .ok (r, .List l)
      | .error _ =>
        match parse_dictionary bencode_bytes with
        | .ok (r, m) => .ok (r, .Dict m)
        | .error e => .error e
  termination_by bencode_bytes.length * 3 + 1
  decreasing_by
    all_goals simp_wf
    all_goals omega

end

/-- The bytes of a string, for concrete test inputs. -/
def bytes (s : String) : List Nat := s.data.map (fun c => c.toNat)

/-! One-step unfolding equations for the mutually recursive parsers, stated
with plain matches so later proofs and concrete evaluations rewrite cleanly. -/

theorem manyBencode_eqn (input : List Nat) :
    manyBencode input =
      match parse_bencode input with
      | .error _ => .ok (input, [])
      | .ok (rest, v) =>
        if rest.length < input.length then
          match manyBencode rest with
          | .error e => .error e
          | .ok (fin, vs) => .ok (fin, v :: vs)
        else .error (input, .many0g) := by
  rw [manyBencode]
  cases h : parse_bencode input with
  | error e => rfl
  | ok p =>
    obtain ⟨rest, v⟩ := p
    by_cases hl : rest.length < input.length
    · simp [hl]
    · simp [hl]

theorem parse_list_eqn (bencode_bytes : List Nat) :
    parse_list bencode_bytes =
      match tagB 108 bencode_bytes with
      | .error e => .error e
      | .ok (r1, _) =>
        match manyBencode r1 with
        | .error e => .error e
        | .ok (r2, elements) =>
          match tagB 101 r2 with
          | .error e => .error e
          | .ok (r3, _) => .ok (r3, elements) := by
  rw [parse_list]
  cases h : tagB 108 bencode_bytes with
  | error e => rfl
  | ok p => rfl

theorem manyPairs_eqn (input : List Nat) :
    manyPairs input =
      match parse_string input with
      | .error _ => .ok (input, [])
      | .ok (r1, key) =>
        match parse_bencode r1 with
        | .error _ => .ok (input, [])
        | .ok (r2, v) =>
          if r2.length < input.length then
            match manyPairs r2 with
            | .error e => .error e
            | .ok (fin, ps) => .ok (fin, (key, v) :: ps)
          else .error (input, .many0g) := by
  rw [manyPairs]
  cases h : parse_string input with
  | error e => rfl
  | ok p =>
    obtain ⟨r1, key⟩ := p
    cases h2 : parse_bencode r1 with
    | error e => rfl
    | ok q =>
      obtain ⟨r2, v⟩ := q
      by_cases hl : r2.length < input.length
      · simp [hl]
      · simp [hl]

theorem parse_dictionary_eqn (bencode_bytes : List Nat) :
    parse_dictionary bencode_bytes =
      match tagB 100 bencode_bytes with
      | .error e => .error e
      | .ok (r1, _) =>
        match manyPairs r1 with
        | .error e => .error e
        | .ok (r2, elements) =>
          match tagB 101 r2 with
          | .error e => .error e
          | .ok (r3, _) => .ok (r3, collectMap elements) := by
  rw [parse_dictionary]
  cases h : tagB 100 bencode_bytes with
  | error e => rfl
  | ok p => rfl

theorem parse_bencode_eqn (bencode_bytes : List Nat) :
    parse_bencode bencode_bytes =
      match parse_number bencode_bytes with
      | .ok (r, n) => .ok (r, .Number n)
      | .error _ =>
        match parse_string bencode_bytes with
        | .ok (r, s) => .ok (r, .ByteString s)
        | .error _ =>
          match parse_list bencode_bytes with
          | .ok (r, l) => .ok (r, .List l)
          | .error _ =>
            match parse_dictionary bencode_bytes with
            | .ok (r, m) => .ok (r, .Dict m)
            | .error e => .error e := by
  rw [parse_bencode]

/-! Helper lemmas about takeWhile, dropWhile and digit strings. -/

theorem takeWhile_all_append {p : Nat → Bool} {l : List Nat} (t : List Nat) {c : Nat}
    (hall : ∀ b ∈ l, p b = true) (hc : p c = false) :
    (l ++ c :: t).takeWhile p = l := by
  induction l with
  | nil => simp [List.takeWhile_cons, hc]
  | cons a as ih =>
    have ha : p a = true := hall a (by simp)
    simp only [List.cons_append, List.takeWhile_cons, ha, if_true]
    rw [ih (fun b hb => hall b (by simp [hb]))]

theorem dropWhile_all_append {p : Nat → Bool} {l : List Nat} (t : List Nat) {c : Nat}
    (hall : ∀ b ∈ l, p b = true) (hc : p c = false) :
    (l ++ c :: t).dropWhile p = c :: t := by
  induction l with
  | nil => simp [List.dropWhile_cons, hc]
  | cons a as ih =>
    have ha : p a = true := hall a (by simp)
    simp only [List.cons_append, List.dropWhile_cons, ha, if_true]
    exact ih (fun b hb => hall b (by simp [hb]))

theorem dropWhile_cons_prop {p : Nat → Bool} {l t : List Nat} {c : Nat}
    (h : l.dropWhile p = c :: t) : p c = false := by
  induction l with
  | nil => simp at h
  | cons a as ih =>
    by_cases ha : p a = true
    · rw [List.dropWhile_cons, if_pos ha] at h
      exact ih h
    · rw [List.dropWhile_cons, if_neg ha] at h
      cases h
      simpa using ha

theorem mem_takeWhile_prop {p : Nat → Bool} {l : List Nat} {b : Nat}
    (h : b ∈ l.takeWhile p) : p b = true := by
  induction l with
  | nil => simp at h
  | cons a as ih =>
    by_cases ha : p a = true
    · rw [List.takeWhile_cons, if_pos ha] at h
      rcases List.mem_cons.mp h with h1 | h1
      · exact h1 ▸ ha
      · exact ih h1
    · rw [List.takeWhile_cons, if_neg ha] at h
      simp at h

theorem isDigitB_bounds {b : Nat} (h : isDigitB b = true) : 48 ≤ b ∧ b ≤ 57 := by
  simp [isDigitB] at h
  exact h

theorem natOfDigits_append_digit (l : List Nat) (d : Nat) :
    natOfDigits (l ++ [d]) = natOfDigits l * 10 + (d - 48) := by
  simp [natOfDigits, List.foldl_append]

/-! Decimal encoding of naturals and integers, mirroring the text form that
to_string / Display produce in Rust (most significant digit first, a minus
sign for negative integers). -/

/-- Reversed decimal digits of n in ASCII, with enough fuel. -/
def digitsRev : Nat → Nat → List Nat
  | 0, _ => []
  | fuel + 1, n => if n < 10 then [n + 48] else (n % 10 + 48) :: digitsRev fuel (n / 10)

/-- ASCII decimal representation of a natural number. -/
def encNat (n : Nat) : List Nat := (digitsRev (n + 1) n).reverse

/-- ASCII decimal representation of an integer (minus sign when negative). -/
def encInt (n : Int) : List Nat :=
  if n < 0 then 45 :: encNat n.natAbs else encNat n.toNat

theorem digitsRev_spec : ∀ fuel n, n < fuel →
    natOfDigits ((digitsRev fuel n).reverse) = n ∧
    (∀ b ∈ digitsRev fuel n, isDigitB b = true) ∧ digitsRev fuel n ≠ [] := by
  intro fuel
  induction fuel with
  | zero => intro n h; omega
  | succ f ih =>
    intro n h
    by_cases h10 : n < 10
    · refine ⟨?_, ?_, by simp [digitsRev, h10]⟩
      · simp [digitsRev, h10, natOfDigits]
      · intro b hb
        simp [digitsRev, h10] at hb
        simp [isDigitB, hb]
        omega
    · have hdiv : n / 10 < f := by
        have h1 : n / 10 < n := Nat.div_lt_self (by omega) (by omega)
        omega
      obtain ⟨ihv, ihd, ihne⟩ := ih (n / 10) hdiv
      refine ⟨?_, ?_, by simp [digitsRev, h10]⟩
      · rw [digitsRev, if_neg h10]
        simp only [List.reverse_cons]
        rw [natOfDigits_append_digit, ihv]
        omega
      · intro b hb
        rw [digitsRev, if_neg h10] at hb
        rcases List.mem_cons.mp hb with h1 | h1
        · subst h1
          simp [isDigitB]
          omega
        · exact ihd b h1

theorem encNat_value (n : Nat) : natOfDigits (encNat n) = n :=
  (digitsRev_spec (n + 1) n (by omega)).1

theorem encNat_digits (n : Nat) : ∀ b ∈ encNat n, isDigitB b = true := by
  intro b hb
  exact (digitsRev_spec (n + 1) n (by omega)).2.1 b (by simpa [encNat] using hb)

theorem encNat_ne_nil (n : Nat) : encNat n ≠ [] := by
  have := (digitsRev_spec (n + 1) n (by omega)).2.2
  simp [encNat]
  intro hc
  exact this (by simpa using congrArg List.reverse hc)

/-! The integer grammar exactly as claim C2 words it (optional minus sign
only), and as amended (optional minus or plus sign): definitions follow the
specification text, for comparison with parse_number. -/

/-- Shared digit part of the specification-worded integer grammars: one or
more decimal digits, then the byte e, with the signed value (negated when neg
holds) required to fit in i64; returns the value and the suffix after e. -/
def specCore (neg : Prop) [Decidable neg] (r2 : List Nat) : Option (Int × List Nat) :=
  if r2.takeWhile isDigitB = [] then none
  else
    match r2.dropWhile isDigitB with
    | [] => none
    | e1 :: rest =>
      if e1 = 101 then
        if -(2 ^ 63) ≤ (if neg then -(natOfDigits (r2.takeWhile isDigitB) : Int)
              else (natOfDigits (r2.takeWhile isDigitB) : Int)) ∧
            (if neg then -(natOfDigits (r2.takeWhile isDigitB) : Int)
              else (natOfDigits (r2.takeWhile isDigitB) : Int)) ≤ 2 ^ 63 - 1 then
          some ((if neg then -(natOfDigits (r2.takeWhile isDigitB) : Int)
            else (natOfDigits (r2.takeWhile isDigitB) : Int)), rest)
        else none
      else none

/-- Modelled from the words of claim C2: the input must begin with the byte i,
then an optional minus sign, then one or more decimal digits whose signed
value fits in i64, then the byte e; the value and the suffix after e are
returned. -/
def specNumberC2 (input : List Nat) : Option (Int × List Nat) :=
  match input with
  | [] => none
  | c :: r1 =>
    if c = 105 then
      if r1.head? = some 45 then specCore True r1.tail
      else specCore False r1
    else none

/-- The amended integer grammar: as specNumberC2 but the optional sign may be
a minus or a plus (Rust str::parse::<i64> accepts both). -/
def specNumberPlus (input : List Nat) : Option (Int × List Nat) :=
  match input with
  | [] => none
  | c :: r1 =>
    if c = 105 then
      if r1.head? = some 45 then specCore True r1.tail
      else if r1.head? = some 43 then specCore False r1.tail
      else specCore False r1
    else none

/-! Success-shape characterizations of the non-recursive parsers. -/

theorem tagB_ok_iff {t : Nat} {i r o : List Nat} :
    tagB t i = .ok (r, o) ↔ i = t :: r ∧ o = [t] := by
  cases i with
  | nil => simp [tagB]
  | cons b rest =>
    by_cases hb : b = t
    · subst hb
      simp [tagB]
      intro h
      subst h
      tauto
    · simp [tagB, hb]

theorem notE_true_iff {b : Nat} : notE b = true ↔ b ≠ 101 := by
  simp [notE]

theorem parse_number_ok_iff {input r : List Nat} {v : Int} :
    parse_number input = .ok (r, v) ↔
      ∃ body, input = 105 :: (body ++ 101 :: r) ∧ body ≠ [] ∧
        (∀ b ∈ body, b ≠ 101) ∧ parseI64 body = some v := by
  constructor
  · intro h
    unfold parse_number at h
    split at h
    · simp at h
    · rename_i r1 o htag
      obtain ⟨hi, _⟩ := tagB_ok_iff.mp htag
      split at h
      · simp at h
      · rename_i d ds htw
        split at h
        · simp at h
        · rename_i v1 hI
          split at h
          · simp at h
          · rename_i r3 o2 htag2
            simp at h
            obtain ⟨hr3, hv1⟩ := h
            obtain ⟨hdw, _⟩ := tagB_ok_iff.mp htag2
            refine ⟨d :: ds, ?_, by simp, ?_, ?_⟩
            · rw [hi, ← htw]
              rw [hr3] at hdw
              rw [← hdw, List.takeWhile_append_dropWhile]
            · intro b hb
              rw [← htw] at hb
              exact notE_true_iff.mp (mem_takeWhile_prop hb)
            · rw [← hv1]
              exact hI
  · rintro ⟨body, hin, hne, h101, hI⟩
    have hall : ∀ b ∈ body, notE b = true := fun b hb => notE_true_iff.mpr (h101 b hb)
    have h101f : notE 101 = false := by simp [notE]
    have htw : (body ++ 101 :: r).takeWhile notE = body := takeWhile_all_append r hall h101f
    have hdw : (body ++ 101 :: r).dropWhile notE = 101 :: r := dropWhile_all_append r hall h101f
    subst hin
    unfold parse_number
    rw [show tagB 105 (105 :: (body ++ 101 :: r)) = .ok (body ++ 101 :: r, [105]) from by
      simp [tagB]]
    cases body with
    | nil => exact absurd rfl hne
    | cons d ds =>
      simp only [htw, hdw, hI]
      rw [show tagB 101 (101 :: r) = .ok (r, [101]) from by simp [tagB]]


theorem parseI64_cons_45 (ds : List Nat) :
    parseI64 (45 :: ds) =
      if ds ≠ [] ∧ ds.all isDigitB = true then
        if -(2 ^ 63) ≤ -(natOfDigits ds : Int) ∧ -(natOfDigits ds : Int) ≤ 2 ^ 63 - 1 then
          some (-(natOfDigits ds : Int))
        else none
      else none := by
  simp only [parseI64]
  norm_num

theorem parseI64_cons_43 (ds : List Nat) :
    parseI64 (43 :: ds) =
      if ds ≠ [] ∧ ds.all isDigitB = true then
        if -(2 ^ 63) ≤ (natOfDigits ds : Int) ∧ (natOfDigits ds : Int) ≤ 2 ^ 63 - 1 then
          some (natOfDigits ds : Int)
        else none
      else none := by
  simp only [parseI64]
  norm_num

theorem parseI64_cons_digit (b : Nat) (ds : List Nat) (h45 : b ≠ 45) (h43 : b ≠ 43) :
    parseI64 (b :: ds) =
      if (b :: ds).all isDigitB = true then
        if -(2 ^ 63) ≤ (natOfDigits (b :: ds) : Int) ∧ (natOfDigits (b :: ds) : Int) ≤ 2 ^ 63 - 1
        then some (natOfDigits (b :: ds) : Int)
        else none
      else none := by
  simp only [parseI64]
  simp [h45, h43]

theorem parseI64_some_iff {body : List Nat} {v : Int} :
    parseI64 body = some v ↔
      ∃ pre ds, (pre = [] ∨ pre = [45] ∨ pre = [43]) ∧ body = pre ++ ds ∧ ds ≠ [] ∧
        (∀ b ∈ ds, isDigitB b = true) ∧
        v = (if pre = [45] then -(natOfDigits ds : Int) else (natOfDigits ds : Int)) ∧
        -(2 ^ 63) ≤ v ∧ v ≤ 2 ^ 63 - 1 := by
  constructor
  · intro h
    cases body with
    | nil => simp [parseI64] at h
    | cons b rest =>
      by_cases hb45 : b = 45
      · subst hb45
        rw [parseI64_cons_45] at h
        split at h
        · rename_i hcond
          split at h
          · rename_i hrange
            have hv : -(natOfDigits rest : Int) = v := Option.some.inj h
            refine ⟨[45], rest, by tauto, by simp, hcond.1,
              fun x hx => List.all_eq_true.mp hcond.2 x hx, by simp [← hv], ?_, ?_⟩
            · rw [← hv]; exact hrange.1
            · rw [← hv]; exact hrange.2
          · simp at h
        · simp at h
      · by_cases hb43 : b = 43
        · subst hb43
          rw [parseI64_cons_43] at h
          split at h
          · rename_i hcond
            split at h
            · rename_i hrange
              have hv : (natOfDigits rest : Int) = v := Option.some.inj h
              refine ⟨[43], rest, by tauto, by simp, hcond.1,
                fun x hx => List.all_eq_true.mp hcond.2 x hx, by simp [← hv], ?_, ?_⟩
              · rw [← hv]; exact hrange.1
              · rw [← hv]; exact hrange.2
            · simp at h
          · simp at h
        · rw [parseI64_cons_digit b rest hb45 hb43] at h
          split at h
          · rename_i hcond
            split at h
            · rename_i hrange
              have hv : (natOfDigits (b :: rest) : Int) = v := Option.some.inj h
              refine ⟨[], b :: rest, by tauto, by simp, by simp,
                fun x hx => List.all_eq_true.mp hcond x hx, by simp [← hv], ?_, ?_⟩
              · rw [← hv]; exact hrange.1
              · rw [← hv]; exact hrange.2
            · simp at h
          · simp at h
  · rintro ⟨pre, ds, hpre, hbody, hne, hdig, hv, hlo, hhi⟩
    have hall : ds.all isDigitB = true := List.all_eq_true.mpr hdig
    rcases hpre with hp | hp | hp
    · subst hp
      simp only [List.nil_append] at hbody
      subst hbody
      cases body with
      | nil => exact absurd rfl hne
      | cons d rest =>
        have hdb := isDigitB_bounds (hdig d (by simp))
        have hd45 : d ≠ 45 := by omega
        have hd43 : d ≠ 43 := by omega
        have hvp : v = ((natOfDigits (d :: rest) : Int)) := by simpa using hv
        subst hvp
        rw [parseI64_cons_digit d rest hd45 hd43, if_pos hall, if_pos ⟨hlo, hhi⟩]
    · subst hp
      subst hbody
      have hvp : v = -((natOfDigits ds : Int)) := by simpa using hv
      subst hvp
      simp only [List.cons_append, List.nil_append]
      rw [parseI64_cons_45, if_pos ⟨hne, hall⟩]
      rw [if_pos ?hcond]
      case hcond =>
        constructor
        · simpa using hlo
        · simpa using hhi
    · subst hp
      subst hbody
      have hvp : v = ((natOfDigits ds : Int)) := by
        simpa [show ¬(([43] : List Nat) = [45]) from by simp] using hv
      subst hvp
      simp only [List.cons_append, List.nil_append]
      rw [parseI64_cons_43, if_pos ⟨hne, hall⟩]
      rw [if_pos ?hcond2]
      case hcond2 =>
        constructor
        · simpa using hlo
        · simpa using hhi

theorem isDigitB_101 : isDigitB 101 = false := by decide

theorem specCore_some_iff {neg : Prop} [Decidable neg] {r2 r : List Nat} {v : Int} :
    specCore neg r2 = some (v, r) ↔
      ∃ ds, r2 = ds ++ 101 :: r ∧ ds ≠ [] ∧ (∀ b ∈ ds, isDigitB b = true) ∧
        v = (if neg then -(natOfDigits ds : Int) else (natOfDigits ds : Int)) ∧
        -(2 ^ 63) ≤ v ∧ v ≤ 2 ^ 63 - 1 := by
  constructor
  · intro h
    unfold specCore at h
    split at h
    · simp at h
    · rename_i hne
      split at h
      · simp at h
      · rename_i e1 rest hdw
        split at h
        · rename_i he1
          set w : Int := if neg then -(natOfDigits (r2.takeWhile isDigitB) : Int)
            else (natOfDigits (r2.takeWhile isDigitB) : Int) with hw
          split at h
          · rename_i hrange
            simp only [Option.some.injEq, Prod.mk.injEq] at h
            obtain ⟨hv, hrest⟩ := h
            refine ⟨r2.takeWhile isDigitB, ?_, hne, fun b hb => mem_takeWhile_prop hb,
              by rw [← hv, hw], ?_, ?_⟩
            · conv_lhs => rw [← List.takeWhile_append_dropWhile (p := isDigitB) (l := r2)]
              rw [hdw, he1, hrest]
            · rw [← hv]; exact hrange.1
            · rw [← hv]; exact hrange.2
          · simp at h
        · simp at h
  · rintro ⟨ds, hr2, hne, hdig, hv, hlo, hhi⟩
    subst hr2
    have htw := takeWhile_all_append (p := isDigitB) r hdig isDigitB_101
    have hdw := dropWhile_all_append (p := isDigitB) r hdig isDigitB_101
    unfold specCore
    rw [htw, hdw, if_neg hne]
    simp only [← hv]
    rw [if_pos trivial, if_pos ⟨hlo, hhi⟩]

theorem specNumberPlus_some_iff {input r : List Nat} {v : Int} :
    specNumberPlus input = some (v, r) ↔
      ∃ pre ds, (pre = [] ∨ pre = [45] ∨ pre = [43]) ∧
        input = 105 :: (pre ++ (ds ++ 101 :: r)) ∧
        ds ≠ [] ∧ (∀ b ∈ ds, isDigitB b = true) ∧
        v = (if pre = [45] then -(natOfDigits ds : Int) else (natOfDigits ds : Int)) ∧
        -(2 ^ 63) ≤ v ∧ v ≤ 2 ^ 63 - 1 := by
  constructor
  · intro h
    cases input with
    | nil => simp [specNumberPlus] at h
    | cons c r1 =>
      simp only [specNumberPlus] at h
      split at h
      · rename_i hc
        subst hc
        split at h
        · rename_i h45
          cases r1 with
          | nil => simp at h45
          | cons b t =>
            simp only [List.head?_cons, Option.some.injEq] at h45
            subst h45
            simp only [List.tail_cons] at h
            obtain ⟨ds, ht, hne, hdig, hv, hlo, hhi⟩ := specCore_some_iff.mp h
            refine ⟨[45], ds, by tauto, by simp [ht], hne, hdig, ?_, hlo, hhi⟩
            simpa using hv
        · split at h
          · rename_i h45 h43
            cases r1 with
            | nil => simp at h43
            | cons b t =>
              simp only [List.head?_cons, Option.some.injEq] at h43
              subst h43
              simp only [List.tail_cons] at h
              obtain ⟨ds, ht, hne, hdig, hv, hlo, hhi⟩ := specCore_some_iff.mp h
              refine ⟨[43], ds, by tauto, by simp [ht], hne, hdig, ?_, hlo, hhi⟩
              simpa using hv
          · rename_i h45 h43
            obtain ⟨ds, ht, hne, hdig, hv, hlo, hhi⟩ := specCore_some_iff.mp h
            refine ⟨[], ds, by tauto, by simp [ht], hne, hdig, ?_, hlo, hhi⟩
            simpa using hv
      · simp at h
  · rintro ⟨pre, ds, hpre, hin, hne, hdig, hv, hlo, hhi⟩
    subst hin
    simp only [specNumberPlus]
    rw [if_pos trivial]
    rcases hpre with hp | hp | hp
    · subst hp
      simp only [List.nil_append]
      cases ds with
      | nil => exact absurd rfl hne
      | cons d ds1 =>
        have hdb := isDigitB_bounds (hdig d (by simp))
        have h45 : ¬((d :: ds1 ++ 101 :: r).head? = some 45) := by
          simp only [List.cons_append, List.head?_cons, Option.some.injEq]
          omega
        have h43 : ¬((d :: ds1 ++ 101 :: r).head? = some 43) := by
          simp only [List.cons_append, List.head?_cons, Option.some.injEq]
          omega
        rw [if_neg h45, if_neg h43]
        exact specCore_some_iff.mpr ⟨d :: ds1, rfl, hne, hdig, by simpa using hv, hlo, hhi⟩
    · subst hp
      simp only [List.cons_append, List.nil_append, List.head?_cons, List.tail_cons]
      rw [if_pos trivial]
      exact specCore_some_iff.mpr ⟨ds, rfl, hne, hdig, by simpa using hv, hlo, hhi⟩
    · subst hp
      simp only [List.cons_append, List.nil_append, List.head?_cons, List.tail_cons]
      rw [if_pos trivial]
      exact specCore_some_iff.mpr ⟨ds, rfl, hne, hdig, by simpa using hv, hlo, hhi⟩

theorem parse_number_eq_specNumberPlus {input r : List Nat} {v : Int} :
    parse_number input = .ok (r, v) ↔ specNumberPlus input = some (v, r) := by
  rw [parse_number_ok_iff, specNumberPlus_some_iff]
  constructor
  · rintro ⟨body, hin, hne, h101, hI⟩
    obtain ⟨pre, ds, hpre, hbody, hdne, hdig, hv, hlo, hhi⟩ := parseI64_some_iff.mp hI
    refine ⟨pre, ds, hpre, ?_, hdne, hdig, hv, hlo, hhi⟩
    rw [hin, hbody]
    simp
  · rintro ⟨pre, ds, hpre, hin, hne, hdig, hv, hlo, hhi⟩
    refine ⟨pre ++ ds, by simpa using hin, ?_, ?_, ?_⟩
    · intro hc
      exact hne (List.append_eq_nil.mp hc).2
    · intro b hb
      rcases List.mem_append.mp hb with h1 | h1
      · rcases hpre with hp | hp | hp <;> subst hp <;> simp at h1 <;> omega
      · have := isDigitB_bounds (hdig b h1)
        omega
    · exact parseI64_some_iff.mpr ⟨pre, ds, hpre, rfl, hne, hdig, hv, hlo, hhi⟩

theorem parse_number_roundtrip {n : Int} (hlo : -(2 ^ 63) ≤ n) (hhi : n ≤ 2 ^ 63 - 1) :
    parse_number (105 :: (encInt n ++ [101])) = .ok ([], n) := by
  rw [parse_number_eq_specNumberPlus]
  by_cases hneg : n < 0
  · refine specNumberPlus_some_iff.mpr ⟨[45], encNat n.natAbs, by tauto, ?_,
      encNat_ne_nil _, encNat_digits _, ?_, hlo, hhi⟩
    · simp [encInt, hneg]
    · have habs : ((n.natAbs : Int)) = -n := by
        rcases Int.natAbs_eq n with h | h <;> omega
      simp [encNat_value, habs]
  · refine specNumberPlus_some_iff.mpr ⟨[], encNat n.toNat, by tauto, ?_,
      encNat_ne_nil _, encNat_digits _, ?_, hlo, hhi⟩
    · simp [encInt, hneg]
    · simp [encNat_value]
      have := Int.toNat_of_nonneg (show 0 ≤ n by omega)
      omega

theorem isDigitB_58 : isDigitB 58 = false := by decide

theorem digit1_ok_iff {i r o : List Nat} :
    digit1 i = .ok (r, o) ↔ o = i.takeWhile isDigitB ∧ o ≠ [] ∧ r = i.dropWhile isDigitB := by
  unfold digit1
  split
  · rename_i htw
    simp [htw]
    intro h
    subst h
    simp
  · rename_i d ds htw
    rw [htw]
    simp only [Except.ok.injEq, Prod.mk.injEq]
    constructor
    · rintro ⟨h1, h2⟩
      exact ⟨h2.symm, by simp [← h2], h1.symm⟩
    · rintro ⟨h1, h2, h3⟩
      exact ⟨h3.symm, h1.symm⟩

theorem parse_string_ok_iff {input r s : List Nat} :
    parse_string input = .ok (r, s) ↔
      ∃ ds, input = ds ++ 58 :: (s ++ r) ∧ ds ≠ [] ∧ (∀ b ∈ ds, isDigitB b = true) ∧
        natOfDigits ds < 2 ^ 64 ∧ natOfDigits ds = s.length := by
  constructor
  · intro h
    unfold parse_string at h
    split at h
    · simp at h
    · rename_i rem1 digits hd
      obtain ⟨hdig, hne, hrem1⟩ := digit1_ok_iff.mp hd
      split at h
      · simp at h
      · rename_i n hu
        unfold parseUsize at hu
        split at hu
        · rename_i hbound
          have hn : n = natOfDigits digits := (Option.some.inj hu).symm
          split at h
          · simp at h
          · rename_i remaining o2 ht
            obtain ⟨hrem2, _⟩ := tagB_ok_iff.mp ht
            split at h
            · rename_i htake
              simp only [Except.ok.injEq, Prod.mk.injEq] at h
              obtain ⟨hr, hs⟩ := h
              refine ⟨digits, ?_, hne, ?_, ?_, ?_⟩
              · conv_lhs => rw [← List.takeWhile_append_dropWhile (p := isDigitB) (l := input)]
                rw [← hdig, ← hrem1, hrem2, ← hs, ← hr, List.take_append_drop]
              · intro b hb
                rw [hdig] at hb
                exact mem_takeWhile_prop hb
              · exact hbound
              · rw [← hs, List.length_take]
                omega
            · simp at h
        · simp at hu
  · rintro ⟨ds, hin, hne, hdig, hbound, hlen⟩
    subst hin
    have htw := takeWhile_all_append (p := isDigitB) (s ++ r) hdig isDigitB_58
    have hdw := dropWhile_all_append (p := isDigitB) (s ++ r) hdig isDigitB_58
    have hd1 : digit1 (ds ++ 58 :: (s ++ r)) = .ok (58 :: (s ++ r), ds) :=
      digit1_ok_iff.mpr ⟨htw.symm, hne, hdw.symm⟩
    unfold parse_string
    simp only [hd1]
    simp only [show parseUsize ds = some (natOfDigits ds) from by
      unfold parseUsize; rw [if_pos hbound]]
    simp only [show tagB 58 (58 :: (s ++ r)) = .ok (s ++ r, [58]) from by simp [tagB]]
    simp only [hlen]
    rw [if_pos (show s.length ≤ (s ++ r).length from by simp)]
    rw [List.take_left, List.drop_left]

/-! Composite grammars expressed through their repetition loops, and the
consumption discipline: every successful parse returns a strict suffix. -/

theorem parse_list_of_loop {r stop : List Nat} {vs : List Bencode}
    (h : manyBencode r = .ok (stop, vs)) :
    parse_list (108 :: r) =
      match tagB 101 stop with
      | .error e => .error e
      | .ok (r3, _) => .ok (r3, vs) := by
  rw [parse_list_eqn]
  simp only [show tagB 108 (108 :: r) = .ok (r, [108]) from by simp [tagB]]
  simp only [h]

theorem parse_dictionary_of_loop {r stop : List Nat} {ps : List (List Nat × Bencode)}
    (h : manyPairs r = .ok (stop, ps)) :
    parse_dictionary (100 :: r) =
      match tagB 101 stop with
      | .error e => .error e
      | .ok (r3, _) => .ok (r3, collectMap ps) := by
  rw [parse_dictionary_eqn]
  simp only [show tagB 100 (100 :: r) = .ok (r, [100]) from by simp [tagB]]
  simp only [h]

theorem parse_number_ok_suffix {i r : List Nat} {v : Int}
    (h : parse_number i = .ok (r, v)) : r.IsSuffix i ∧ r.length < i.length := by
  obtain ⟨body, hin, _, _, _⟩ := parse_number_ok_iff.mp h
  subst hin
  refine ⟨⟨105 :: (body ++ [101]), by simp⟩, ?_⟩
  simp
  omega

theorem parse_string_ok_suffix {i r s : List Nat}
    (h : parse_string i = .ok (r, s)) : r.IsSuffix i ∧ r.length < i.length := by
  obtain ⟨ds, hin, hne, _, _, _⟩ := parse_string_ok_iff.mp h
  subst hin
  refine ⟨⟨ds ++ 58 :: s, by simp⟩, ?_⟩
  simp
  cases ds with
  | nil => exact absurd rfl hne
  | cons d t => simp; omega

theorem tagB_ok_suffix {t : Nat} {i r o : List Nat} (h : tagB t i = .ok (r, o)) :
    r.IsSuffix i := by
  obtain ⟨hi, _⟩ := tagB_ok_iff.mp h
  subst hi
  exact List.suffix_cons t r

theorem parser_suffix_all : ∀ n : Nat,
    (∀ i r : List Nat, ∀ v : Bencode, i.length ≤ n →
      parse_bencode i = .ok (r, v) → r.IsSuffix i ∧ r.length < i.length) ∧
    (∀ i r : List Nat, ∀ vs : List Bencode, i.length ≤ n →
      manyBencode i = .ok (r, vs) → r.IsSuffix i ∧ r.length ≤ i.length) ∧
    (∀ i r : List Nat, ∀ ps : List (List Nat × Bencode), i.length ≤ n →
      manyPairs i = .ok (r, ps) → r.IsSuffix i ∧ r.length ≤ i.length) ∧
    (∀ i r : List Nat, ∀ l : List Bencode, i.length ≤ n →
      parse_list i = .ok (r, l) → r.IsSuffix i ∧ r.length < i.length) ∧
    (∀ i r : List Nat, ∀ m : List (List Nat × Bencode), i.length ≤ n →
      parse_dictionary i = .ok (r, m) → r.IsSuffix i ∧ r.length < i.length) := by
  intro n
  induction n using Nat.strong_induction_on with
  | _ n ih =>
    have hlist : ∀ i r : List Nat, ∀ l : List Bencode, i.length ≤ n →
        parse_list i = .ok (r, l) → r.IsSuffix i ∧ r.length < i.length := by
      intro i r l hlen h
      rw [parse_list_eqn] at h
      split at h
      · simp at h
      · rename_i r1 o htag
        obtain ⟨hi, _⟩ := tagB_ok_iff.mp htag
        split at h
        · simp at h
        · rename_i r2 vs hloop
          split at h
          · simp at h
          · rename_i r3 o2 htag2
            simp only [Except.ok.injEq, Prod.mk.injEq] at h
            obtain ⟨hr3, _⟩ := h
            rw [← hr3]
            have hr1n : r1.length < n := by
              rw [hi] at hlen
              simp at hlen
              omega
            obtain ⟨hsfx2, hlen2⟩ :=
              (ih r1.length hr1n).2.1 r1 r2 vs le_rfl hloop
            have hsfx3 : r3.IsSuffix r2 := tagB_ok_suffix htag2
            have hlen3 : r3.length < r2.length := tagB_ok_length htag2
            refine ⟨(hsfx3.trans hsfx2).trans (by rw [hi]; exact List.suffix_cons 108 r1), ?_⟩
            rw [hi]
            simp
            omega
    have hdict : ∀ i r : List Nat, ∀ m : List (List Nat × Bencode), i.length ≤ n →
        parse_dictionary i = .ok (r, m) → r.IsSuffix i ∧ r.length < i.length := by
      intro i r m hlen h
      rw [parse_dictionary_eqn] at h
      split at h
      · simp at h
      · rename_i r1 o htag
        obtain ⟨hi, _⟩ := tagB_ok_iff.mp htag
        split at h
        · simp at h
        · rename_i r2 ps hloop
          split at h
          · simp at h
          · rename_i r3 o2 htag2
            simp only [Except.ok.injEq, Prod.mk.injEq] at h
            obtain ⟨hr3, _⟩ := h
            rw [← hr3]
            have hr1n : r1.length < n := by
              rw [hi] at hlen
              simp at hlen
              omega
            obtain ⟨hsfx2, hlen2⟩ :=
              (ih r1.length hr1n).2.2.1 r1 r2 ps le_rfl hloop
            have hsfx3 : r3.IsSuffix r2 := tagB_ok_suffix htag2
            have hlen3 : r3.length < r2.length := tagB_ok_length htag2
            refine ⟨(hsfx3.trans hsfx2).trans (by rw [hi]; exact List.suffix_cons 100 r1), ?_⟩
            rw [hi]
            simp
            omega
    have hb : ∀ i r : List Nat, ∀ v : Bencode, i.length ≤ n →
        parse_bencode i = .ok (r, v) → r.IsSuffix i ∧ r.length < i.length := by
      intro i r v hlen h
      rw [parse_bencode_eqn] at h
      split at h
      · rename_i rn vn hnum
        simp only [Except.ok.injEq, Prod.mk.injEq] at h
        obtain ⟨h1, _⟩ := h
        subst h1
        exact parse_number_ok_suffix hnum
      · split at h
        · rename_i rs ss hstr
          simp only [Except.ok.injEq, Prod.mk.injEq] at h
          obtain ⟨h1, _⟩ := h
          subst h1
          exact parse_string_ok_suffix hstr
        · split at h
          · rename_i rl ll hl
            simp only [Except.ok.injEq, Prod.mk.injEq] at h
            obtain ⟨h1, _⟩ := h
            subst h1
            exact hlist i rl ll hlen hl
          · split at h
            · rename_i rd md hd
              simp only [Except.ok.injEq, Prod.mk.injEq] at h
              obtain ⟨h1, _⟩ := h
              subst h1
              exact hdict i rd md hlen hd
            · simp at h
    have hmanyB : ∀ i r : List Nat, ∀ vs : List Bencode, i.length ≤ n →
        manyBencode i = .ok (r, vs) → r.IsSuffix i ∧ r.length ≤ i.length := by
      intro i r vs hlen h
      rw [manyBencode_eqn] at h
      split at h
      · simp only [Except.ok.injEq, Prod.mk.injEq] at h
        obtain ⟨h1, _⟩ := h
        subst h1
        exact ⟨List.suffix_refl i, le_rfl⟩
      · rename_i rest v hok
        split at h
        · rename_i hlt
          split at h
          · simp at h
          · rename_i fin vs2 hrec
            simp only [Except.ok.injEq, Prod.mk.injEq] at h
            obtain ⟨h1, _⟩ := h
            rw [← h1]
            obtain ⟨hsfx1, hlt1⟩ := hb i rest v hlen hok
            obtain ⟨hsfx2, hlen2⟩ :=
              (ih rest.length (by omega)).2.1 rest fin vs2 le_rfl hrec
            exact ⟨hsfx2.trans hsfx1, by omega⟩
        · simp at h
    have hmanyP : ∀ i r : List Nat, ∀ ps : List (List Nat × Bencode), i.length ≤ n →
        manyPairs i = .ok (r, ps) → r.IsSuffix i ∧ r.length ≤ i.length := by
      intro i r ps hlen h
      rw [manyPairs_eqn] at h
      split at h
      · simp only [Except.ok.injEq, Prod.mk.injEq] at h
        obtain ⟨h1, _⟩ := h
        subst h1
        exact ⟨List.suffix_refl i, le_rfl⟩
      · rename_i r1 key hkey
        split at h
        · simp only [Except.ok.injEq, Prod.mk.injEq] at h
          obtain ⟨h1, _⟩ := h
          subst h1
          exact ⟨List.suffix_refl i, le_rfl⟩
        · rename_i r2 v hok
          split at h
          · rename_i hlt
            split at h
            · simp at h
            · rename_i fin ps2 hrec
              simp only [Except.ok.injEq, Prod.mk.injEq] at h
              obtain ⟨h1, _⟩ := h
              rw [← h1]
              obtain ⟨hsfx0, hlen0⟩ := parse_string_ok_suffix hkey
              obtain ⟨hsfx1, hlen1⟩ := hb r1 r2 v (by omega) hok
              obtain ⟨hsfx2, hlen2⟩ :=
                (ih r2.length (by omega)).2.2.1 r2 fin ps2 le_rfl hrec
              exact ⟨(hsfx2.trans hsfx1).trans hsfx0, by omega⟩
          · simp at h
    exact ⟨hb, hmanyB, hmanyP, hlist, hdict⟩

theorem parse_bencode_consumes {i r : List Nat} {v : Bencode}
    (h : parse_bencode i = .ok (r, v)) : r.IsSuffix i ∧ r.length < i.length :=
  (parser_suffix_all i.length).1 i r v le_rfl h

/-! The BTreeMap model: lookup, last-occurrence semantics of collect, and
sortedness of the entry list. -/

/-- BTreeMap::get on the entry list: the value of the entry with key k. -/
def lookupKey (m : List (List Nat × Bencode)) (k : List Nat) : Option Bencode :=
  (m.find? (fun p => decide (p.1 = k))).map (fun p => p.2)

/-- The value of the last occurrence of key k in a parsed pair list. -/
def lastVal (ps : List (List Nat × Bencode)) (k : List Nat) : Option Bencode :=
  ps.foldl (fun acc p => if p.1 = k then some p.2 else acc) none

/-- Entry keys strictly ascending in the byte-lexicographic order. -/
def sortedKeys (m : List (List Nat × Bencode)) : Prop :=
  List.Pairwise (fun a b => ltBytes a.1 b.1 = true) m

/-- Well-formed Bencode tree: every Dict node, at every nesting level, has its
entries strictly ascending in byte-lexicographic key order (so keys are
unique), which is the invariant BTreeMap maintains. -/
inductive WFB : Bencode → Prop where
  | num (n : Int) : WFB (.Number n)
  | str (s : List Nat) : WFB (.ByteString s)
  | list (l : List Bencode) : (∀ v ∈ l, WFB v) → WFB (.List l)
  | dict (m : List (List Nat × Bencode)) :
      sortedKeys m → List.Pairwise (fun a b => a.1 ≠ b.1) m →
      (∀ p ∈ m, WFB p.2) → WFB (.Dict m)

theorem ltBytes_trans : ∀ a b c : List Nat,
    ltBytes a b = true → ltBytes b c = true → ltBytes a c = true := by
  intro a
  induction a with
  | nil =>
    intro b c hab hbc
    cases b with
    | nil => simp [ltBytes] at hab
    | cons y ys =>
      cases c with
      | nil => simp [ltBytes] at hbc
      | cons z zs => rfl
  | cons x xs ih =>
    intro b c hab hbc
    cases b with
    | nil => simp [ltBytes] at hab
    | cons y ys =>
      cases c with
      | nil => simp [ltBytes] at hbc
      | cons z zs =>
        simp only [ltBytes] at hab hbc ⊢
        by_cases hxy : x < y
        · by_cases hyz : y < z
          · rw [if_pos (lt_trans hxy hyz)]
          · rw [if_neg hyz] at hbc
            by_cases hyz2 : y = z
            · subst hyz2
              rw [if_pos hxy]
            · rw [if_neg hyz2] at hbc
              simp at hbc
        · rw [if_neg hxy] at hab
          by_cases hxy2 : x = y
          · subst hxy2
            rw [if_pos rfl] at hab
            by_cases hyz : x < z
            · rw [if_pos hyz]
            · rw [if_neg hyz] at hbc ⊢
              by_cases hyz2 : x = z
              · rw [if_pos hyz2] at hbc ⊢
                exact ih ys zs hab hbc
              · rw [if_neg hyz2] at hbc
                simp at hbc
          · rw [if_neg hxy2] at hab
            simp at hab

theorem ltBytes_irrefl : ∀ a : List Nat, ltBytes a a = false := by
  intro a
  induction a with
  | nil => rfl
  | cons x xs ih => simp [ltBytes, ih]

theorem sortedKeys_unique {m : List (List Nat × Bencode)} (h : sortedKeys m) :
    List.Pairwise (fun a b : List Nat × Bencode => a.1 ≠ b.1) m :=
  h.imp (fun hlt heq => by rw [heq, ltBytes_irrefl] at hlt; exact absurd hlt (by simp))

theorem ltBytes_total : ∀ a b : List Nat, a ≠ b → ltBytes a b = true ∨ ltBytes b a = true := by
  intro a
  induction a with
  | nil =>
    intro b hne
    cases b with
    | nil => exact absurd rfl hne
    | cons y ys => left; rfl
  | cons x xs ih =>
    intro b hne
    cases b with
    | nil => right; rfl
    | cons y ys =>
      by_cases hxy : x < y
      · left; simp [ltBytes, hxy]
      · by_cases hyx : y < x
        · right; simp [ltBytes, hyx]
        · have hx : x = y := by omega
          subst hx
          have hne2 : xs ≠ ys := fun hc => hne (by rw [hc])
          rcases ih ys hne2 with h | h
          · left; simp [ltBytes, h]
          · right; simp [ltBytes, h]

theorem insertKV_mem {k : List Nat} {v : Bencode} :
    ∀ {m : List (List Nat × Bencode)} {p}, p ∈ insertKV k v m → p = (k, v) ∨ p ∈ m := by
  intro m
  induction m with
  | nil => intro p hp; simpa [insertKV] using hp
  | cons q rest ih =>
    intro p hp
    obtain ⟨k1, v1⟩ := q
    unfold insertKV at hp
    split at hp
    · rcases List.mem_cons.mp hp with h | h
      · exact Or.inl h
      · exact Or.inr h
    · split at hp
      · rcases List.mem_cons.mp hp with h | h
        · exact Or.inl h
        · exact Or.inr (List.mem_cons_of_mem _ h)
      · rcases List.mem_cons.mp hp with h | h
        · exact Or.inr (h ▸ List.mem_cons_self _ _)
        · rcases ih h with h2 | h2
          · exact Or.inl h2
          · exact Or.inr (List.mem_cons_of_mem _ h2)

theorem insertKV_sorted {k : List Nat} {v : Bencode} :
    ∀ {m : List (List Nat × Bencode)}, sortedKeys m → sortedKeys (insertKV k v m) := by
  intro m
  induction m with
  | nil => intro _; simp [insertKV, sortedKeys]
  | cons q rest ih =>
    intro hs
    obtain ⟨k1, v1⟩ := q
    rw [sortedKeys, List.pairwise_cons] at hs
    obtain ⟨hs1, hs2⟩ := hs
    unfold insertKV
    split
    · rename_i hlt
      rw [sortedKeys, List.pairwise_cons]
      constructor
      · intro q hq
        rcases List.mem_cons.mp hq with h | h
        · rw [h]
          exact hlt
        · exact ltBytes_trans _ _ _ hlt (hs1 q h)
      · exact List.pairwise_cons.mpr ⟨hs1, hs2⟩
    · split
      · rename_i hlt heq
        subst heq
        rw [sortedKeys, List.pairwise_cons]
        exact ⟨hs1, hs2⟩
      · rename_i hlt hne
        rw [sortedKeys, List.pairwise_cons]
        constructor
        · intro q hq
          rcases insertKV_mem hq with h | h
          · rw [h]
            rcases ltBytes_total k k1 (fun hc => hne hc) with h2 | h2
            · exact absurd h2 (by simpa using hlt)
            · exact h2
          · exact hs1 q h
        · exact ih hs2

theorem lookupKey_cons_self {k : List Nat} {v : Bencode} {rest : List (List Nat × Bencode)} :
    lookupKey ((k, v) :: rest) k = some v := by
  simp [lookupKey, List.find?_cons_of_pos]

theorem lookupKey_cons_ne {k1 : List Nat} {v1 : Bencode} {rest : List (List Nat × Bencode)}
    {k2 : List Nat} (h : k1 ≠ k2) : lookupKey ((k1, v1) :: rest) k2 = lookupKey rest k2 := by
  simp only [lookupKey]
  rw [List.find?_cons_of_neg]
  simpa using h

theorem lookupKey_insert_self (k : List Nat) (v : Bencode) :
    ∀ m : List (List Nat × Bencode), lookupKey (insertKV k v m) k = some v := by
  intro m
  induction m with
  | nil => simp [insertKV]; exact lookupKey_cons_self
  | cons q rest ih =>
    obtain ⟨k1, v1⟩ := q
    unfold insertKV
    split
    · exact lookupKey_cons_self
    · split
      · exact lookupKey_cons_self
      · rename_i hlt hne
        rw [lookupKey_cons_ne (fun hc => hne hc.symm)]
        exact ih

theorem lookupKey_insert_other (k : List Nat) (v : Bencode) (k2 : List Nat) (hne : k2 ≠ k) :
    ∀ m : List (List Nat × Bencode), lookupKey (insertKV k v m) k2 = lookupKey m k2 := by
  intro m
  induction m with
  | nil =>
    simp only [insertKV]
    rw [lookupKey_cons_ne (fun hc => hne hc.symm)]
  | cons q rest ih =>
    obtain ⟨k1, v1⟩ := q
    unfold insertKV
    split
    · rw [lookupKey_cons_ne (fun hc => hne hc.symm)]
    · split
      · rename_i hlt heq
        subst heq
        rw [lookupKey_cons_ne (fun hc => hne hc.symm),
          lookupKey_cons_ne (fun hc => hne hc.symm)]
      · rename_i hlt hne2
        by_cases hk1 : k1 = k2
        · subst hk1
          rw [lookupKey_cons_self, lookupKey_cons_self]
        · rw [lookupKey_cons_ne hk1, lookupKey_cons_ne hk1]
          exact ih

theorem lastVal_acc (k : List Nat) :
    ∀ (t : List (List Nat × Bencode)) (acc : Option Bencode),
      t.foldl (fun acc p => if p.1 = k then some p.2 else acc) acc =
        match lastVal t k with
        | some v => some v
        | none => acc := by
  intro t
  induction t with
  | nil => intro acc; simp [lastVal]
  | cons p t ih =>
    intro acc
    simp only [lastVal, List.foldl_cons]
    rw [ih (if p.1 = k then some p.2 else acc), ih (if p.1 = k then some p.2 else none)]
    cases hL : lastVal t k with
    | some v => rfl
    | none =>
      by_cases hp : p.1 = k
      · simp [hp]
      · simp [hp]

theorem lookup_foldl_insert (k : List Nat) :
    ∀ (ps : List (List Nat × Bencode)) (m0 : List (List Nat × Bencode)),
      lookupKey (ps.foldl (fun m p => insertKV p.1 p.2 m) m0) k =
        match lastVal ps k with
        | some v => some v
        | none => lookupKey m0 k := by
  intro ps
  induction ps with
  | nil => intro m0; simp [lastVal]
  | cons p t ih =>
    intro m0
    obtain ⟨k1, v1⟩ := p
    simp only [List.foldl_cons]
    rw [ih]
    have hlast : lastVal ((k1, v1) :: t) k =
        match lastVal t k with
        | some v => some v
        | none => if k1 = k then some v1 else none := by
      simp only [lastVal, List.foldl_cons]
      rw [lastVal_acc]
      rfl
    rw [hlast]
    cases htv : lastVal t k with
    | some v => rfl
    | none =>
      by_cases hk1 : k1 = k
      · subst hk1
        simp only [if_pos rfl]
        exact lookupKey_insert_self k1 v1 m0
      · simp only [if_neg hk1]
        exact lookupKey_insert_other k1 v1 k (fun hc => hk1 hc.symm) m0

theorem lookup_collectMap (ps : List (List Nat × Bencode)) (k : List Nat) :
    lookupKey (collectMap ps) k = lastVal ps k := by
  unfold collectMap
  rw [lookup_foldl_insert]
  cases lastVal ps k <;> rfl

theorem sorted_foldl_insert :
    ∀ (ps m0 : List (List Nat × Bencode)), sortedKeys m0 →
      sortedKeys (ps.foldl (fun m p => insertKV p.1 p.2 m) m0) := by
  intro ps
  induction ps with
  | nil => intro m0 h; simpa using h
  | cons p t ih =>
    intro m0 h
    simp only [List.foldl_cons]
    exact ih _ (insertKV_sorted h)

theorem sorted_collectMap (ps : List (List Nat × Bencode)) : sortedKeys (collectMap ps) :=
  sorted_foldl_insert ps [] (by simp [sortedKeys])

theorem mem_foldl_insert :
    ∀ (ps m0 : List (List Nat × Bencode)) (p : List Nat × Bencode),
      p ∈ ps.foldl (fun m q => insertKV q.1 q.2 m) m0 → p ∈ m0 ∨ p ∈ ps := by
  intro ps
  induction ps with
  | nil => intro m0 p hp; exact Or.inl (by simpa using hp)
  | cons q t ih =>
    intro m0 p hp
    simp only [List.foldl_cons] at hp
    rcases ih _ p hp with h | h
    · rcases insertKV_mem h with h2 | h2
      · right
        rw [h2]
        exact List.mem_cons_self _ _
      · exact Or.inl h2
    · exact Or.inr (List.mem_cons_of_mem _ h)

theorem mem_collectMap {ps : List (List Nat × Bencode)} {p : List Nat × Bencode}
    (hp : p ∈ collectMap ps) : p ∈ ps := by
  rcases mem_foldl_insert ps [] p hp with h | h
  · simp at h
  · exact h

theorem parser_wf_all : ∀ n : Nat,
    (∀ i r : List Nat, ∀ v : Bencode, i.length ≤ n →
      parse_bencode i = .ok (r, v) → WFB v) ∧
    (∀ i r : List Nat, ∀ vs : List Bencode, i.length ≤ n →
      manyBencode i = .ok (r, vs) → ∀ v ∈ vs, WFB v) ∧
    (∀ i r : List Nat, ∀ ps : List (List Nat × Bencode), i.length ≤ n →
      manyPairs i = .ok (r, ps) → ∀ p ∈ ps, WFB p.2) ∧
    (∀ i r : List Nat, ∀ l : List Bencode, i.length ≤ n →
      parse_list i = .ok (r, l) → ∀ v ∈ l, WFB v) ∧
    (∀ i r : List Nat, ∀ m : List (List Nat × Bencode), i.length ≤ n →
      parse_dictionary i = .ok (r, m) → sortedKeys m ∧ ∀ p ∈ m, WFB p.2) := by
  intro n
  induction n using Nat.strong_induction_on with
  | _ n ih =>
    have hlist : ∀ i r : List Nat, ∀ l : List Bencode, i.length ≤ n →
        parse_list i = .ok (r, l) → ∀ v ∈ l, WFB v := by
      intro i r l hlen h
      rw [parse_list_eqn] at h
      split at h
      · simp at h
      · rename_i r1 o htag
        obtain ⟨hi, _⟩ := tagB_ok_iff.mp htag
        split at h
        · simp at h
        · rename_i r2 vs hloop
          split at h
          · simp at h
          · rename_i r3 o2 htag2
            simp only [Except.ok.injEq, Prod.mk.injEq] at h
            obtain ⟨_, hvs⟩ := h
            rw [← hvs]
            have hr1n : r1.length < n := by
              rw [hi] at hlen
              simp at hlen
              omega
            exact (ih r1.length hr1n).2.1 r1 r2 vs le_rfl hloop
    have hdict : ∀ i r : List Nat, ∀ m : List (List Nat × Bencode), i.length ≤ n →
        parse_dictionary i = .ok (r, m) → sortedKeys m ∧ ∀ p ∈ m, WFB p.2 := by
      intro i r m hlen h
      rw [parse_dictionary_eqn] at h
      split at h
      · simp at h
      · rename_i r1 o htag
        obtain ⟨hi, _⟩ := tagB_ok_iff.mp htag
        split at h
        · simp at h
        · rename_i r2 ps hloop
          split at h
          · simp at h
          · rename_i r3 o2 htag2
            simp only [Except.ok.injEq, Prod.mk.injEq] at h
            obtain ⟨_, hm⟩ := h
            rw [← hm]
            have hr1n : r1.length < n := by
              rw [hi] at hlen
              simp at hlen
              omega
            have hps := (ih r1.length hr1n).2.2.1 r1 r2 ps le_rfl hloop
            exact ⟨sorted_collectMap ps, fun p hp => hps p (mem_collectMap hp)⟩
    have hb : ∀ i r : List Nat, ∀ v : Bencode, i.length ≤ n →
        parse_bencode i = .ok (r, v) → WFB v := by
      intro i r v hlen h
      rw [parse_bencode_eqn] at h
      split at h
      · rename_i rn vn hnum
        simp only [Except.ok.injEq, Prod.mk.injEq] at h
        rw [← h.2]
        exact WFB.num vn
      · split at h
        · rename_i rs ss hstr
          simp only [Except.ok.injEq, Prod.mk.injEq] at h
          rw [← h.2]
          exact WFB.str ss
        · split at h
          · rename_i rl ll hl
            simp only [Except.ok.injEq, Prod.mk.injEq] at h
            rw [← h.2]
            exact WFB.list ll (hlist i rl ll hlen hl)
          · split at h
            · rename_i rd md hd
              simp only [Except.ok.injEq, Prod.mk.injEq] at h
              rw [← h.2]
              obtain ⟨hsk, hvals⟩ := hdict i rd md hlen hd
              exact WFB.dict md hsk (sortedKeys_unique hsk) hvals
            · simp at h
    have hmanyB : ∀ i r : List Nat, ∀ vs : List Bencode, i.length ≤ n →
        manyBencode i = .ok (r, vs) → ∀ v ∈ vs, WFB v := by
      intro i r vs hlen h
      rw [manyBencode_eqn] at h
      split at h
      · simp only [Except.ok.injEq, Prod.mk.injEq] at h
        rw [← h.2]
        intro v hv
        simp at hv
      · rename_i rest v hok
        split at h
        · rename_i hlt
          split at h
          · simp at h
          · rename_i fin vs2 hrec
            simp only [Except.ok.injEq, Prod.mk.injEq] at h
            rw [← h.2]
            intro w hw
            rcases List.mem_cons.mp hw with hw1 | hw1
            · rw [hw1]
              exact hb i rest v hlen hok
            · exact (ih rest.length (by omega)).2.1 rest fin vs2 le_rfl hrec w hw1
        · simp at h
    have hmanyP : ∀ i r : List Nat, ∀ ps : List (List Nat × Bencode), i.length ≤ n →
        manyPairs i = .ok (r, ps) → ∀ p ∈ ps, WFB p.2 := by
      intro i r ps hlen h
      rw [manyPairs_eqn] at h
      split at h
      · simp only [Except.ok.injEq, Prod.mk.injEq] at h
        rw [← h.2]
        intro p hp
        simp at hp
      · rename_i r1 key hkey
        split at h
        · simp only [Except.ok.injEq, Prod.mk.injEq] at h
          rw [← h.2]
          intro p hp
          simp at hp
        · rename_i r2 v hok
          split at h
          · rename_i hlt
            split at h
            · simp at h
            · rename_i fin ps2 hrec
              simp only [Except.ok.injEq, Prod.mk.injEq] at h
              rw [← h.2]
              have hr1 : r1.length < i.length := parse_string_ok_length hkey
              intro p hp
              rcases List.mem_cons.mp hp with hp1 | hp1
              · rw [hp1]
                exact hb r1 r2 v (by omega) hok
              · exact (ih r2.length (by omega)).2.2.1 r2 fin ps2 le_rfl hrec p hp1
          · simp at h
    exact ⟨hb, hmanyB, hmanyP, hlist, hdict⟩

theorem parse_bencode_wf {i r : List Nat} {v : Bencode}
    (h : parse_bencode i = .ok (r, v)) : WFB v :=
  (parser_wf_all i.length).1 i r v le_rfl h

/-! The ten claims. -/

/-- C1: For every input byte slice, the top-level decode (parse_bencode)
attempts the integer grammar, then the byte-string grammar, then the list
grammar, then the dictionary grammar, in that fixed order, returns the result
of the first grammar that succeeds (the decoded value plus the unconsumed
suffix), and fails if and only if all four grammars fail on that input (the
reported error being that of the last alternative, as nom's alt produces). -/
theorem c1_dispatcher_fixed_order (input : List Nat) :
    (∀ r : List Nat, ∀ n : Int, parse_number input = .ok (r, n) →
      parse_bencode input = .ok (r, .Number n)) ∧
    (∀ e1 : Err, ∀ r s : List Nat, parse_number input = .error e1 →
      parse_string input = .ok (r, s) → parse_bencode input = .ok (r, .ByteString s)) ∧
    (∀ e1 e2 : Err, ∀ r : List Nat, ∀ l : List Bencode, parse_number input = .error e1 →
      parse_string input = .error e2 → parse_list input = .ok (r, l) →
      parse_bencode input = .ok (r, .List l)) ∧
    (∀ e1 e2 e3 : Err, ∀ r : List Nat, ∀ m : List (List Nat × Bencode),
      parse_number input = .error e1 → parse_string input = .error e2 →
      parse_list input = .error e3 → parse_dictionary input = .ok (r, m) →
      parse_bencode input = .ok (r, .Dict m)) ∧
    (∀ e1 e2 e3 e4 : Err, parse_number input = .error e1 →
      parse_string input = .error e2 → parse_list input = .error e3 →
      parse_dictionary input = .error e4 → parse_bencode input = .error e4) ∧
    ((∃ e, parse_bencode input = .error e) ↔
      (∃ e, parse_number input = .error e) ∧ (∃ e, parse_string input = .error e) ∧
      (∃ e, parse_list input = .error e) ∧ (∃ e, parse_dictionary input = .error e)) := by
  refine ⟨?_, ?_, ?_, ?_, ?_, ?_⟩
  · intro r n h
    rw [parse_bencode_eqn, h]
  · intro e1 r s h1 h2
    rw [parse_bencode_eqn, h1, h2]
  · intro e1 e2 r l h1 h2 h3
    rw [parse_bencode_eqn, h1, h2, h3]
  · intro e1 e2 e3 r m h1 h2 h3 h4
    rw [parse_bencode_eqn, h1, h2, h3, h4]
  · intro e1 e2 e3 e4 h1 h2 h3 h4
    rw [parse_bencode_eqn, h1, h2, h3, h4]
  · constructor
    · rintro ⟨e, he⟩
      rw [parse_bencode_eqn] at he
      cases h1 : parse_number input with
      | ok p =>
        obtain ⟨r, n⟩ := p
        rw [h1] at he
        simp at he
      | error e1 =>
        rw [h1] at he
        cases h2 : parse_string input with
        | ok p =>
          obtain ⟨r, s⟩ := p
          rw [h2] at he
          simp at he
        | error e2 =>
          rw [h2] at he
          cases h3 : parse_list input with
          | ok p =>
            obtain ⟨r, l⟩ := p
            rw [h3] at he
            simp at he
          | error e3 =>
            rw [h3] at he
            cases h4 : parse_dictionary input with
            | ok p =>
              obtain ⟨r, m⟩ := p
              rw [h4] at he
              simp at he
            | error e4 =>
              exact ⟨⟨e1, rfl⟩, ⟨e2, rfl⟩, ⟨e3, rfl⟩, ⟨e4, rfl⟩⟩
    · rintro ⟨⟨e1, h1⟩, ⟨e2, h2⟩, ⟨e3, h3⟩, ⟨e4, h4⟩⟩
      exact ⟨e4, by rw [parse_bencode_eqn, h1, h2, h3, h4]⟩

set_option maxRecDepth 8192 in
theorem c1_dispatcher_fixed_order_witness :
    parse_bencode (bytes "le") = .ok ([], .List []) := by
  have hl : parse_list (bytes "le") = .ok ([], ([] : List Bencode)) := by
    simp [parse_list_eqn, manyBencode_eqn, parse_bencode_eqn, parse_number, parse_string,
      parse_dictionary_eqn, manyPairs_eqn, tagB, digit1, bytes, notE, isDigitB, parseI64,
      parseUsize, natOfDigits]
  exact (c1_dispatcher_fixed_order (bytes "le")).2.2.1 _ _ _ [] rfl rfl hl

/-- C2 counterexample: the integer grammar accepts a leading plus sign, which
the claimed grammar (byte i, optional minus, digits, byte e) does not cover:
on the input i+3e parse_number succeeds with 3 while the grammar stated by
the claim (specNumberC2) does not match. -/
theorem c2_counterexample :
    parse_number (bytes "i+3e") = .ok ([], 3) ∧ specNumberC2 (bytes "i+3e") = none := by
  constructor
  · rfl
  · rfl

/-- C2 (amended): parse_number succeeds exactly on the inputs matched by the
grammar byte i, then an optional minus or plus sign, then one or more decimal
digits whose signed value fits in i64, then byte e, returning that value and
the suffix after the e; and for every i64 n, decoding the text form i<n>e
yields Number n with empty remainder. -/
theorem c2_integer_grammar_amended :
    (∀ input r : List Nat, ∀ v : Int,
      parse_number input = .ok (r, v) ↔ specNumberPlus input = some (v, r)) ∧
    (∀ n : Int, -(2 ^ 63) ≤ n → n ≤ 2 ^ 63 - 1 →
      parse_bencode (105 :: (encInt n ++ [101])) = .ok ([], .Number n)) := by
  constructor
  · intro input r v
    exact parse_number_eq_specNumberPlus
  · intro n hlo hhi
    rw [parse_bencode_eqn, parse_number_roundtrip hlo hhi]

theorem c2_integer_grammar_amended_witness :
    parse_bencode (105 :: (encInt 88 ++ [101])) = .ok ([], .Number 88) :=
  c2_integer_grammar_amended.2 88 (by norm_num) (by norm_num)

theorem parse_number_error_of_head {i : List Nat} (h : i.head? ≠ some 105) :
    parse_number i = .error (i, .tag) := by
  cases i with
  | nil => rfl
  | cons b rest =>
    simp at h
    unfold parse_number
    rw [show tagB 105 (b :: rest) = .error (b :: rest, .tag) from by simp [tagB, h]]

/-- C3: For every byte sequence s (of machine-representable length, as any
Rust slice is) and every byte sequence t, decoding the input formed by the
decimal digits of the length of s, then a colon, then s, then t, succeeds
with value ByteString s and remainder exactly t; with t empty the remainder
is empty, and only the declared prefix is consumed. -/
theorem c3_byte_string_roundtrip (s t : List Nat) (hlen : s.length < 2 ^ 64) :
    parse_bencode (encNat s.length ++ 58 :: (s ++ t)) = .ok (t, .ByteString s) := by
  have hstr : parse_string (encNat s.length ++ 58 :: (s ++ t)) = .ok (t, s) :=
    parse_string_ok_iff.mpr ⟨encNat s.length, rfl, encNat_ne_nil _, encNat_digits _,
      by rw [encNat_value]; exact hlen, encNat_value _⟩
  have hhd : (encNat s.length ++ 58 :: (s ++ t)).head? ≠ some 105 := by
    cases henc : encNat s.length with
    | nil => exact absurd henc (encNat_ne_nil _)
    | cons d ds =>
      have hd := isDigitB_bounds (encNat_digits s.length d (by rw [henc]; simp))
      simp [henc]
      omega
  rw [parse_bencode_eqn, parse_number_error_of_head hhd, hstr]

theorem c3_byte_string_roundtrip_witness :
    parse_bencode (encNat (bytes "hi").length ++ 58 :: (bytes "hi" ++ bytes "XY")) =
      .ok (bytes "XY", .ByteString (bytes "hi")) :=
  c3_byte_string_roundtrip (bytes "hi") (bytes "XY") (by decide)

/-- C4: On machine-representable inputs (length below 2^64, as any Rust slice),
parse_string fails exactly when the input does not decompose as a non-empty
run of decimal digits, then a colon, then at least as many bytes as the digit
run denotes (so a leading minus sign is rejected, since a minus is not a
digit); and every success returns a byte string whose length equals the
declared length, never a truncated one. -/
theorem c4_byte_string_failure (input : List Nat) (hmach : input.length < 2 ^ 64) :
    ((∃ e, parse_string input = .error e) ↔
      ¬ ∃ ds s r : List Nat, input = ds ++ 58 :: (s ++ r) ∧ ds ≠ [] ∧
        (∀ b ∈ ds, isDigitB b = true) ∧ natOfDigits ds = s.length) ∧
    (∀ r s : List Nat, parse_string input = .ok (r, s) →
      ∃ ds, input = ds ++ 58 :: (s ++ r) ∧ ds ≠ [] ∧ (∀ b ∈ ds, isDigitB b = true) ∧
        natOfDigits ds = s.length) := by
  constructor
  · constructor
    · rintro ⟨e, he⟩ ⟨ds, s, r, hdecomp, hne, hdig, hlen⟩
      have hs : s.length ≤ input.length := by
        rw [hdecomp]
        simp
        omega
      have hb : natOfDigits ds < 2 ^ 64 := by
        rw [hlen]
        omega
      have hok := parse_string_ok_iff.mpr ⟨ds, hdecomp, hne, hdig, hb, hlen⟩
      rw [hok] at he
      simp at he
    · intro hno
      cases hps : parse_string input with
      | error e => exact ⟨e, rfl⟩
      | ok p =>
        obtain ⟨r, s⟩ := p
        obtain ⟨ds, hdecomp, hne2, hdig, _, hlen⟩ := parse_string_ok_iff.mp hps
        exact absurd ⟨ds, s, r, hdecomp, hne2, hdig, hlen⟩ hno
  · intro r s h
    obtain ⟨ds, h1, h2, h3, _, h5⟩ := parse_string_ok_iff.mp h
    exact ⟨ds, h1, h2, h3, h5⟩

theorem c4_byte_string_failure_witness :
    ∃ ds, bytes "2:hiXY" = ds ++ 58 :: (bytes "hi" ++ bytes "XY") ∧ ds ≠ [] ∧
      (∀ b ∈ ds, isDigitB b = true) ∧ natOfDigits ds = (bytes "hi").length :=
  (c4_byte_string_failure (bytes "2:hiXY") (by decide)).2 (bytes "XY") (bytes "hi") rfl

/-- C5: In the dictionary grammar every key is parsed by parse_string (the
byte-string grammar) only, never by the top-level dispatcher: whenever the
key/value loop of parse_dictionary stops at a position that does not hold the
closing byte e and whose content parse_string rejects (for instance an
integer, list or dict opener), the whole dictionary parse fails. -/
theorem c5_dict_key_grammar {r stop : List Nat} {ps : List (List Nat × Bencode)} {e : Err}
    (hloop : manyPairs r = .ok (stop, ps))
    (hkey : parse_string stop = .error e)
    (hne : stop.head? ≠ some 101) :
    ∃ e2, parse_dictionary (100 :: r) = .error e2 := by
  refine ⟨(stop, .tag), ?_⟩
  rw [parse_dictionary_of_loop hloop]
  have ht : tagB 101 stop = .error (stop, .tag) := by
    cases stop with
    | nil => rfl
    | cons b t =>
      simp at hne
      simp [tagB, hne]
  rw [ht]

theorem c5_dict_key_grammar_witness :
    ∃ e2, parse_dictionary (100 :: bytes "i1ei2ee") = .error e2 := by
  have hloop : manyPairs (bytes "i1ei2ee") = .ok (bytes "i1ei2ee", []) := by
    rw [manyPairs_eqn]
    rw [show parse_string (bytes "i1ei2ee") = .error (bytes "i1ei2ee", .digit) from rfl]
  exact c5_dict_key_grammar hloop rfl (by decide)

/-- C6: For every well-formed dictionary input (the key/value loop succeeds
and stops at a closing e), the dictionary parse succeeds, its map is the
collect of the parsed pairs, and every key is mapped to the value of its last
occurrence in the input; earlier occurrences are silently replaced. -/
theorem c6_duplicate_keys_last_wins {r stop : List Nat} {ps : List (List Nat × Bencode)}
    (hloop : manyPairs r = .ok (stop, ps)) (hstop : stop.head? = some 101) :
    parse_dictionary (100 :: r) = .ok (stop.tail, collectMap ps) ∧
    ∀ k, lookupKey (collectMap ps) k = lastVal ps k := by
  constructor
  · rw [parse_dictionary_of_loop hloop]
    cases stop with
    | nil => simp at hstop
    | cons b t =>
      simp at hstop
      subst hstop
      rw [show tagB 101 (101 :: t) = .ok (t, [101]) from by simp [tagB]]
      rfl
  · intro k
    exact lookup_collectMap ps k

set_option maxRecDepth 8192 in
theorem c6_duplicate_keys_last_wins_witness :
    parse_dictionary (100 :: bytes "1:ai1e1:ai2ee") =
        .ok ([], collectMap [([97], .Number 1), ([97], .Number 2)]) ∧
      lookupKey (collectMap [([97], .Number 1), ([97], .Number 2)]) [97] =
        some (.Number 2) := by
  have hloop : manyPairs (bytes "1:ai1e1:ai2ee") =
      .ok ([101], [([97], .Number 1), ([97], .Number 2)]) := by
    simp [manyPairs_eqn, parse_bencode_eqn, parse_number, parse_string, parse_list_eqn,
      parse_dictionary_eqn, manyBencode_eqn, tagB, digit1, bytes, notE, isDigitB, parseI64,
      parseUsize, natOfDigits]
  have h := c6_duplicate_keys_last_wins hloop (by decide)
  refine ⟨by simpa using h.1, ?_⟩
  rw [h.2 [97]]
  rfl

/-- C7: Every value produced by a successful decode is well formed: every
Dict node at every nesting level of the returned tree has unique keys stored
in strictly ascending byte-lexicographic order, independent of the order the
pairs appeared in the input (the map is built by sorted insertion). -/
theorem c7_dicts_sorted_unique {i r : List Nat} {v : Bencode}
    (h : parse_bencode i = .ok (r, v)) : WFB v :=
  parse_bencode_wf h

set_option maxRecDepth 8192 in
theorem c7_dicts_sorted_unique_witness : WFB (.Dict [([97], .Number 5)]) := by
  have h : parse_bencode (bytes "d1:ai5ee") = .ok ([], .Dict [([97], .Number 5)]) := by
    simp [manyPairs_eqn, parse_bencode_eqn, parse_number, parse_string, parse_list_eqn,
      parse_dictionary_eqn, manyBencode_eqn, tagB, digit1, bytes, notE, isDigitB, parseI64,
      parseUsize, natOfDigits, collectMap, insertKV, ltBytes]
  exact c7_dicts_sorted_unique h

set_option maxRecDepth 8192 in
/-- C8 counterexample: an element failure inside a list does not propagate
unchanged to the caller: on ld3:fooee the failing element d3:fooee reports a
Tag error at the suffix 3:fooee, while parse_list reports a Tag error at
d3:fooee, so the caller receives a different error than the recursive call
produced. -/
theorem c8_counterexample :
    parse_bencode (bytes "d3:fooee") = .error (bytes "3:fooee", .tag) ∧
    parse_list (bytes "ld3:fooee") = .error (bytes "d3:fooee", .tag) ∧
    ((bytes "3:fooee", ErrKind.tag) : Err) ≠ ((bytes "d3:fooee", ErrKind.tag) : Err) := by
  refine ⟨?_, ?_, by decide⟩
  · simp [manyPairs_eqn, parse_bencode_eqn, parse_number, parse_string, parse_list_eqn,
      parse_dictionary_eqn, manyBencode_eqn, tagB, digit1, bytes, notE, isDigitB, parseI64,
      parseUsize, natOfDigits]
  · simp [manyPairs_eqn, parse_bencode_eqn, parse_number, parse_string, parse_list_eqn,
      parse_dictionary_eqn, manyBencode_eqn, tagB, digit1, bytes, notE, isDigitB, parseI64,
      parseUsize, natOfDigits]

/-- C8 (amended): When a recursive parse fails while decoding a composite
value (a list element, a dictionary key, or a dictionary value) at a position
not holding the closing byte e, the composite grammar fails, and no partial
list or dictionary is returned; but the recursive call's error is discarded
by the repetition combinator: the composite reports its own closing-tag
mismatch error positioned at the start of the failed element. -/
theorem c8_failure_not_propagated_amended :
    (∀ r stop : List Nat, ∀ vs : List Bencode, ∀ e : Err,
      manyBencode r = .ok (stop, vs) → parse_bencode stop = .error e →
      stop.head? ≠ some 101 → parse_list (108 :: r) = .error (stop, .tag)) ∧
    (∀ r stop : List Nat, ∀ ps : List (List Nat × Bencode), ∀ e : Err,
      manyPairs r = .ok (stop, ps) → parse_string stop = .error e →
      stop.head? ≠ some 101 → parse_dictionary (100 :: r) = .error (stop, .tag)) ∧
    (∀ r stop r1 key : List Nat, ∀ ps : List (List Nat × Bencode), ∀ e : Err,
      manyPairs r = .ok (stop, ps) → parse_string stop = .ok (r1, key) →
      parse_bencode r1 = .error e →
      stop.head? ≠ some 101 → parse_dictionary (100 :: r) = .error (stop, .tag)) := by
  have htag : ∀ stop : List Nat, stop.head? ≠ some 101 →
      tagB 101 stop = .error (stop, .tag) := by
    intro stop hne
    cases stop with
    | nil => rfl
    | cons b t =>
      simp at hne
      simp [tagB, hne]
  refine ⟨?_, ?_, ?_⟩
  · intro r stop vs e hloop herr hne
    rw [parse_list_of_loop hloop, htag stop hne]
  · intro r stop ps e hloop herr hne
    rw [parse_dictionary_of_loop hloop, htag stop hne]
  · intro r stop r1 key ps e hloop hkey herr hne
    rw [parse_dictionary_of_loop hloop, htag stop hne]

set_option maxRecDepth 8192 in
theorem c8_failure_not_propagated_amended_witness :
    parse_list (108 :: bytes "d3:fooee") = .error (bytes "d3:fooee", .tag) := by
  have herr : parse_bencode (bytes "d3:fooee") = .error (bytes "3:fooee", .tag) := by
    simp [manyPairs_eqn, parse_bencode_eqn, parse_number, parse_string, parse_list_eqn,
      parse_dictionary_eqn, manyBencode_eqn, tagB, digit1, bytes, notE, isDigitB, parseI64,
      parseUsize, natOfDigits]
  have hloop : manyBencode (bytes "d3:fooee") = .ok (bytes "d3:fooee", []) := by
    rw [manyBencode_eqn, herr]
  exact c8_failure_not_propagated_amended.1 _ _ [] _ hloop herr (by decide)

/-- C9: For every finite input byte slice, decoding terminates: the call
either completes with a value and a remainder or fails with an error,
synchronously; parse_bencode is a total function of its input. -/
theorem c9_termination (input : List Nat) :
    (∃ r : List Nat, ∃ v : Bencode, parse_bencode input = .ok (r, v)) ∨
    (∃ e : Err, parse_bencode input = .error e) := by
  cases h : parse_bencode input with
  | ok p => exact Or.inl ⟨p.1, p.2, rfl⟩
  | error e => exact Or.inr ⟨e, rfl⟩

/-- C10: Whenever parse_bencode succeeds, it consumes at least one byte: the
returned remainder is a strictly shorter suffix of the input; and decoding
the empty byte slice always fails. -/
theorem c10_progress (input r : List Nat) (v : Bencode)
    (h : parse_bencode input = .ok (r, v)) :
    (r.IsSuffix input ∧ r.length < input.length) ∧
      parse_bencode [] = .error ([], .tag) := by
  refine ⟨parse_bencode_consumes h, ?_⟩
  simp [parse_bencode_eqn, parse_list_eqn, parse_dictionary_eqn, parse_number, parse_string,
    tagB, digit1]

theorem c10_progress_witness :
    ((([] : List Nat).IsSuffix (bytes "i0e") ∧ ([] : List Nat).length < (bytes "i0e").length) ∧
      parse_bencode [] = .error ([], .tag)) := by
  have h : parse_bencode (bytes "i0e") = .ok ([], .Number 0) := by
    simp [parse_bencode_eqn, parse_number, bytes, tagB, notE, isDigitB, parseI64, natOfDigits]
  exact c10_progress (bytes "i0e") [] (.Number 0) h
